import Mathlib

/-! ## Queue sizing of the pipelined executor

Shallow embedding of `dali/pipeline/executor/pipelined_executor.h`:
`PipelinedExecutorImpl::SetupOutputInfo` records, per stage, the stage outputs
answered by the graph, and `PipelinedExecutorImpl::GetTensorQueueSizes`
overwrites the entries of the base executor's depth vector at those ids with
the depth configured for the stage.

Conventions of the embedding.

* `std::vector` is a `List`; `int` depths are `Int` (no arithmetic is done on
  them); a tensor node id is a `Nat` index.
* `OpType::COUNT`, the number of stages, is declared outside this header; every
  function that loops over the stages takes it as the argument `COUNT`.
* `stage_queue_depths_` is a member of the base executor; it is a table from the
  stage number to the depth, here a function `Nat → Int`.
* `operator[]` on a vector does no bounds check; an access outside the vector
  (undefined behaviour in C++) makes the embedded function return `none`.
* The result of the base class call `Executor::GetTensorQueueSizes(graph)` is
  the argument `base`: the override starts from the vector the base returned.
-/

namespace dali

/-- Identifier of a tensor node: the index of its entry in the depth vector. -/
abbrev TensorNodeId := Nat

/-- Modelled from the spec: the graph node of section 3 of the specification
(the declaration of the graph is outside this header). A node has a unique id
(its position in the graph), one producing stage, given by its number as in the
casts of the stage loops, and may be a pipeline-visible (user-requested)
output. -/
structure TensorNode where
  producer_stage : Nat
  is_pipeline_output : Bool
deriving DecidableEq, Repr

/-- Modelled from the spec: the finalized dataflow graph `OpGraph`, reduced to
what the queue sizing asks of it: its tensor nodes, node `id` at position
`id`. -/
structure OpGraph where
  tensor_nodes : List TensorNode
deriving DecidableEq, Repr

/-- Modelled from the spec: `OpGraph::GetStageOutputs`, whose body is outside
this header. Section 2, item 2 (Graph Query Interface): given a stage, the
identifiers of every dataflow-graph node produced by that stage; section 6: an
ordered set of node ids, the same at every call on the same finalized graph. -/
def OpGraph.GetStageOutputs (graph : OpGraph) (stage : Nat) : List TensorNodeId :=
  (List.range graph.tensor_nodes.length).filter fun id =>
    match graph.tensor_nodes[id]? with
    | some node => node.producer_stage == stage
    | none => false

/-- The argument type of `prefetch_queue_depth`. Its declaration is outside this
header; the default argument `{2, 2}` shows two integer members, named here by
their position in the braces. -/
structure QueueSizes where
  size0 : Int
  size1 : Int
deriving DecidableEq, Repr

/-- The state of a `PipelinedExecutorImpl` that the queue sizing reads and
writes: its own member `stage_outputs_` and the base member
`stage_queue_depths_` it imports with `using`. -/
structure PipelinedExecutorImpl where
  stage_outputs_ : List (List TensorNodeId)
  stage_queue_depths_ : Nat → Int

/-- Modelled from the spec: the part of the base `Executor` constructor, outside
this header, that fills `stage_queue_depths_` from `prefetch_queue_depth`.
Section 6: the table maps each stage to a desired depth supplied at executor
construction; section 4.4: the queue policy decides whether all the stages share
one depth or each stage has its own. Every stage reads one of the two supplied
sizes; `reads_size0` says which one, and stands for the queue policy. -/
def Executor.stageQueueDepths (reads_size0 : Nat → Bool) (prefetch_queue_depth : QueueSizes) :
    Nat → Int :=
  fun stage => if reads_size0 stage then prefetch_queue_depth.size0 else prefetch_queue_depth.size1

/-- The constructor `PipelinedExecutorImpl(..., QueueSizes prefetch_queue_depth = {2, 2})`:
it hands `prefetch_queue_depth` to the base constructor unchanged; an absent
argument (`none`) takes the default `{2, 2}`. `stage_outputs_` starts empty. -/
def PipelinedExecutorImpl.create (reads_size0 : Nat → Bool)
    (prefetch_queue_depth : Option QueueSizes) : PipelinedExecutorImpl :=
  { stage_outputs_ := []
    stage_queue_depths_ :=
      Executor.stageQueueDepths reads_size0 (prefetch_queue_depth.getD ⟨2, 2⟩) }

/-- The call `stage_outputs_.resize(stages_count)`: a longer vector is cut to
`n` entries, a shorter one is filled up with empty vectors. -/
def resize (v : List (List TensorNodeId)) (n : Nat) : List (List TensorNodeId) :=
  v.take n ++ List.replicate (n - v.length) []

/-- The loop of `SetupOutputInfo` over the stages still to visit:
`stage_outputs_[stage] = graph.GetStageOutputs(static_cast<OpType>(stage))`.
It runs after the resize, on a vector of `COUNT` entries, so every index it
writes is inside the vector (`length_resize`). -/
def SetupOutputInfo.loop (graph : OpGraph) :
    List Nat → List (List TensorNodeId) → List (List TensorNodeId)
  | [], outputs => outputs
  | stage :: rest, outputs =>
      SetupOutputInfo.loop graph rest (outputs.set stage (graph.GetStageOutputs stage))

/-- Embedding of `PipelinedExecutorImpl::SetupOutputInfo(graph)`. The device guard and the
call of the base `Executor::SetupOutputInfo(graph)` act on state of the base
class that is not part of `PipelinedExecutorImpl` here; then `stage_outputs_` is
resized to `COUNT` entries and entry `stage` is assigned the answer of the graph
for `stage = 0, ..., COUNT - 1`. -/
def PipelinedExecutorImpl.SetupOutputInfo (COUNT : Nat) (self : PipelinedExecutorImpl)
    (graph : OpGraph) : PipelinedExecutorImpl :=
  { self with
    stage_outputs_ :=
      SetupOutputInfo.loop graph (List.range COUNT) (resize self.stage_outputs_ COUNT) }

/-- The inner loop of `GetTensorQueueSizes`, `for (auto id : stage_outputs_[stage])
result[id] = depth`; an id outside `result` ends the run with `none`. -/
def GetTensorQueueSizes.assign (depth : Int) : List TensorNodeId → List Int → Option (List Int)
  | [], result => some result
  | id :: rest, result =>
      if id < result.length then GetTensorQueueSizes.assign depth rest (result.set id depth)
      else none

/-- The outer loop of `GetTensorQueueSizes` over the stages still to visit; a
stage without an entry in `stage_outputs_` ends the run with `none`. -/
def GetTensorQueueSizes.loop (self : PipelinedExecutorImpl) :
    List Nat → List Int → Option (List Int)
  | [], result => some result
  | stage :: rest, result =>
      match self.stage_outputs_[stage]? with
      | none => none
      | some ids =>
          match GetTensorQueueSizes.assign (self.stage_queue_depths_ stage) ids result with
          | none => none
          | some result1 => GetTensorQueueSizes.loop self rest result1

/-- Embedding of `PipelinedExecutorImpl::GetTensorQueueSizes(graph)`, from the vector `base`
returned by `Executor::GetTensorQueueSizes(graph)`: for `stage = 0, ..., COUNT - 1`
and every id in `stage_outputs_[stage]`, `result[id] = stage_queue_depths_[stage]`. -/
def PipelinedExecutorImpl.GetTensorQueueSizes (COUNT : Nat) (self : PipelinedExecutorImpl)
    (base : List Int) : Option (List Int) :=
  GetTensorQueueSizes.loop self (List.range COUNT) base

/-- Modelled from the spec: `PipelinedExecutorImpl::CalcIterationDataSize`, which
this header only declares. Section 2, item 5: the sum, across all queued nodes,
of slot byte size times depth, over the depth vector after the override. The
sum is the mathematical one of the specification. -/
def CalcIterationDataSize (slot_bytes : List Nat) (depths : List Int) : Int :=
  (List.zipWith (fun (bytes : Nat) (depth : Int) => (bytes : Int) * depth) slot_bytes depths).sum

/-- The depth the two loops leave at node `id` whose entry was `init`: the depth
of the last visited stage that lists `id`, or `init` when none does. -/
def lastAssigned (self : PipelinedExecutorImpl) (id : TensorNodeId) (stages : List Nat)
    (init : Int) : Int :=
  stages.foldl
    (fun depth stage =>
      if id ∈ self.stage_outputs_.getD stage [] then self.stage_queue_depths_ stage else depth)
    init

/-- The stage sets are usable by `GetTensorQueueSizes` on a vector of `n`
entries: there is an entry for each of the `COUNT` stages and every listed id
is below `n`. -/
def ValidStageOutputs (COUNT : Nat) (self : PipelinedExecutorImpl) (n : Nat) : Prop :=
  COUNT ≤ self.stage_outputs_.length ∧
    ∀ stage, stage < COUNT → ∀ id ∈ self.stage_outputs_.getD stage [], id < n

/-- The depth table `depths` with the depth of stage `s` replaced by `d1`. -/
def withStageDepth (depths : Nat → Int) (s : Nat) (d1 : Int) : Nat → Int :=
  fun stage => if stage = s then d1 else depths stage

/-! ## Concrete inputs -/

/-- The depth table of the three-stage scenario: depth 2 for the stages 0 and 1,
depth 3 for stage 2. -/
def scenarioTable : Nat → Int := fun stage => if stage = 2 then 3 else 2

/-- The executor of the three-stage scenario: node `i` is the one recorded
output of stage `i`. -/
def scenarioExecutor (table : Nat → Int) : PipelinedExecutorImpl :=
  ⟨[[0], [1], [2]], table⟩

/-- An executor in which node 0 is recorded for the stages 0 and 1, with depth 3
for stage 0 and depth 2 for stage 1. -/
def overlapExecutor : PipelinedExecutorImpl :=
  ⟨[[0], [0], []], fun stage => if stage = 0 then 3 else 2⟩

/-- The three-node graph of the scenario: node `i` is produced by stage `i`, none
is a pipeline-visible output. -/
def scenarioGraph : OpGraph :=
  ⟨[⟨0, false⟩, ⟨1, false⟩, ⟨2, false⟩]⟩

/-! ## The two loops of `GetTensorQueueSizes` -/

theorem assign_spec (depth : Int) (ids : List TensorNodeId) :
    ∀ result : List Int, (∀ id ∈ ids, id < result.length) →
      ∃ r, GetTensorQueueSizes.assign depth ids result = some r ∧ r.length = result.length ∧
        ∀ i, r[i]? = if i ∈ ids then some depth else result[i]? := by
  induction ids with
  | nil =>
    intro result _
    exact ⟨result, rfl, rfl, by simp⟩
  | cons id rest ih =>
    intro result h
    have hid : id < result.length := h id (List.mem_cons_self _ _)
    obtain ⟨r, hr, hlen, hget⟩ := ih (result.set id depth)
      (by intro j hj; simpa using h j (List.mem_cons_of_mem _ hj))
    refine ⟨r, by simp [GetTensorQueueSizes.assign, hid, hr], by simpa using hlen, ?_⟩
    intro i
    rw [hget i]
    by_cases hi : i ∈ rest
    · simp [hi]
    · by_cases hii : i = id
      · subst hii
        simp [hi, hid]
      · simp [hi, hii, List.getElem?_set_ne (Ne.symm hii)]

theorem lastAssigned_cons (self : PipelinedExecutorImpl) (i stage : Nat) (rest : List Nat)
    (init : Int) :
    lastAssigned self i (stage :: rest) init =
      lastAssigned self i rest
        (if i ∈ self.stage_outputs_.getD stage [] then self.stage_queue_depths_ stage
         else init) := rfl

theorem loop_spec (self : PipelinedExecutorImpl) (n : Nat) (stages : List Nat) :
    ∀ result : List Int, result.length = n →
      (∀ stage ∈ stages, stage < self.stage_outputs_.length ∧
        ∀ id ∈ self.stage_outputs_.getD stage [], id < n) →
      ∃ r, GetTensorQueueSizes.loop self stages result = some r ∧ r.length = n ∧
        ∀ i, r[i]? = (result[i]?).map (lastAssigned self i stages) := by
  induction stages with
  | nil =>
    intro result hn _
    refine ⟨result, rfl, hn, ?_⟩
    intro i
    cases result[i]? <;> rfl
  | cons stage rest ih =>
    intro result hn h
    obtain ⟨hstage, hids⟩ := h stage (List.mem_cons_self _ _)
    have hget : self.stage_outputs_[stage]? = some (self.stage_outputs_.getD stage []) := by
      simp [List.getD_eq_getElem?_getD, List.getElem?_eq_getElem hstage]
    obtain ⟨r1, hr1, hlen1, hget1⟩ :=
      assign_spec (self.stage_queue_depths_ stage) (self.stage_outputs_.getD stage []) result
        (by intro id hid; rw [hn]; exact hids id hid)
    obtain ⟨r, hr, hlen, hgetr⟩ := ih r1 (hlen1.trans hn)
      (fun s hs => h s (List.mem_cons_of_mem _ hs))
    refine ⟨r, by simp only [GetTensorQueueSizes.loop, hget, hr1, hr], hlen, ?_⟩
    intro i
    rw [hgetr i, hget1 i]
    by_cases hi : i ∈ self.stage_outputs_.getD stage []
    · have hlt : i < result.length := by rw [hn]; exact hids i hi
      rw [if_pos hi, List.getElem?_eq_getElem hlt, Option.map_some', Option.map_some',
        lastAssigned_cons, if_pos hi]
    · rw [if_neg hi]
      cases result[i]? with
      | none => rfl
      | some x => rw [Option.map_some', Option.map_some', lastAssigned_cons, if_neg hi]

/-- Characterisation of the override: with usable stage sets the call returns a
vector of the length of `base`, whose entry at every id is the depth of the last
stage listing the id, or the base depth when no stage lists it. -/
theorem GetTensorQueueSizes_spec (COUNT : Nat) (self : PipelinedExecutorImpl) (base : List Int)
    (h : ValidStageOutputs COUNT self base.length) :
    ∃ r, self.GetTensorQueueSizes COUNT base = some r ∧ r.length = base.length ∧
      ∀ i, r[i]? = (base[i]?).map (lastAssigned self i (List.range COUNT)) := by
  apply loop_spec self base.length (List.range COUNT) base rfl
  intro stage hs
  have hlt : stage < COUNT := List.mem_range.mp hs
  exact ⟨lt_of_lt_of_le hlt h.1, h.2 stage hlt⟩

theorem assign_some_valid (depth : Int) (ids : List TensorNodeId) :
    ∀ result r : List Int, GetTensorQueueSizes.assign depth ids result = some r →
      ∀ id ∈ ids, id < result.length := by
  induction ids with
  | nil =>
    intro result r _ id hid
    exact absurd hid (List.not_mem_nil id)
  | cons id0 rest ih =>
    intro result r h id hid
    by_cases hlt : id0 < result.length
    · rcases List.mem_cons.mp hid with heq | hmem
      · rw [heq]
        exact hlt
      · simp only [GetTensorQueueSizes.assign, hlt, if_true] at h
        simpa using ih (result.set id0 depth) r h id hmem
    · simp [GetTensorQueueSizes.assign, hlt] at h

theorem loop_some_valid (self : PipelinedExecutorImpl) (stages : List Nat) :
    ∀ result r : List Int, GetTensorQueueSizes.loop self stages result = some r →
      ∀ stage ∈ stages, stage < self.stage_outputs_.length ∧
        ∀ id ∈ self.stage_outputs_.getD stage [], id < result.length := by
  induction stages with
  | nil =>
    intro result r _ stage hs
    exact absurd hs (List.not_mem_nil stage)
  | cons stage0 rest ih =>
    intro result r h
    have hlt : stage0 < self.stage_outputs_.length := by
      by_contra hge
      simp [GetTensorQueueSizes.loop, List.getElem?_eq_none (not_lt.mp hge)] at h
    have hget : self.stage_outputs_[stage0]? = some (self.stage_outputs_.getD stage0 []) := by
      simp [List.getD_eq_getElem?_getD, List.getElem?_eq_getElem hlt]
    unfold GetTensorQueueSizes.loop at h
    rw [hget] at h
    dsimp only at h
    cases hassign : GetTensorQueueSizes.assign (self.stage_queue_depths_ stage0)
        (self.stage_outputs_.getD stage0 []) result with
    | none =>
      rw [hassign] at h
      exact Option.noConfusion h
    | some r1 =>
      rw [hassign] at h
      dsimp only at h
      have hids := assign_some_valid _ _ result r1 hassign
      obtain ⟨r2, hr2, hlen2, _⟩ := assign_spec (self.stage_queue_depths_ stage0)
        (self.stage_outputs_.getD stage0 []) result hids
      rw [hassign] at hr2
      cases hr2
      intro stage hs
      rcases List.mem_cons.mp hs with heq | hmem
      · rw [heq]
        exact ⟨hlt, hids⟩
      · have := ih r1 r h stage hmem
        rw [hlen2] at this
        exact this

/-- The call returns a vector exactly when the stage sets are usable: every
stage has an entry in `stage_outputs_` and every listed id is inside the base
vector. In every other case some `operator[]` of the C++ code reads or writes
outside a vector. -/
theorem GetTensorQueueSizes_isSome_iff (COUNT : Nat) (self : PipelinedExecutorImpl)
    (base : List Int) :
    (∃ r, self.GetTensorQueueSizes COUNT base = some r) ↔
      ValidStageOutputs COUNT self base.length := by
  constructor
  · rintro ⟨r, hr⟩
    have h := loop_some_valid self (List.range COUNT) base r hr
    constructor
    · cases COUNT with
      | zero => exact Nat.zero_le _
      | succ n => exact (h n (List.mem_range.mpr (Nat.lt_succ_self n))).1
    · intro stage hs
      exact (h stage (List.mem_range.mpr hs)).2
  · intro h
    obtain ⟨r, hr, _⟩ := GetTensorQueueSizes_spec COUNT self base h
    exact ⟨r, hr⟩

/-! ## The depth left at one node -/

theorem lastAssigned_range_succ (self : PipelinedExecutorImpl) (i n : Nat) (init : Int) :
    lastAssigned self i (List.range (n + 1)) init =
      if i ∈ self.stage_outputs_.getD n [] then self.stage_queue_depths_ n
      else lastAssigned self i (List.range n) init := by
  simp [lastAssigned, List.range_succ, List.foldl_append]

theorem lastAssigned_of_not_listed (self : PipelinedExecutorImpl) (i : Nat) (init : Int) :
    ∀ n, (∀ stage, stage < n → i ∉ self.stage_outputs_.getD stage []) →
      lastAssigned self i (List.range n) init = init := by
  intro n
  induction n with
  | zero => intro _; rfl
  | succ n ih =>
    intro h
    rw [lastAssigned_range_succ, if_neg (h n (Nat.lt_succ_self n))]
    exact ih (fun s hs => h s (Nat.lt_succ_of_lt hs))

theorem lastAssigned_of_last (self : PipelinedExecutorImpl) (i s : Nat) (init : Int)
    (hi : i ∈ self.stage_outputs_.getD s []) :
    ∀ n, s < n → (∀ t, s < t → t < n → i ∉ self.stage_outputs_.getD t []) →
      lastAssigned self i (List.range n) init = self.stage_queue_depths_ s := by
  intro n
  induction n with
  | zero => intro h; exact absurd h (Nat.not_lt_zero _)
  | succ n ih =>
    intro hs h
    rw [lastAssigned_range_succ]
    rcases Nat.lt_succ_iff_lt_or_eq.mp hs with hlt | heq
    · rw [if_neg (h n hlt (Nat.lt_succ_self n))]
      exact ih hlt (fun t ht htn => h t ht (Nat.lt_succ_of_lt htn))
    · subst heq
      rw [if_pos hi]

theorem lastAssigned_uniform (self : PipelinedExecutorImpl) (i : Nat) (init d : Int) :
    ∀ n, (∀ stage, stage < n → self.stage_queue_depths_ stage = d) →
      (∃ stage, stage < n ∧ i ∈ self.stage_outputs_.getD stage []) →
      lastAssigned self i (List.range n) init = d := by
  intro n
  induction n with
  | zero =>
    rintro _ ⟨s, hs, _⟩
    exact absurd hs (Nat.not_lt_zero _)
  | succ n ih =>
    rintro hd ⟨s, hs, hi⟩
    rw [lastAssigned_range_succ]
    by_cases hn : i ∈ self.stage_outputs_.getD n []
    · rw [if_pos hn]
      exact hd n (Nat.lt_succ_self n)
    · rw [if_neg hn]
      refine ih (fun t ht => hd t (Nat.lt_succ_of_lt ht)) ⟨s, ?_, hi⟩
      rcases Nat.lt_succ_iff_lt_or_eq.mp hs with hlt | heq
      · exact hlt
      · subst heq
        exact absurd hi hn

theorem lastAssigned_pos (self : PipelinedExecutorImpl) (i : Nat) (init : Int) (hinit : 0 < init) :
    ∀ n, (∀ stage, stage < n → 0 < self.stage_queue_depths_ stage) →
      0 < lastAssigned self i (List.range n) init := by
  intro n
  induction n with
  | zero => intro _; exact hinit
  | succ n ih =>
    intro h
    rw [lastAssigned_range_succ]
    split
    · exact h n (Nat.lt_succ_self n)
    · exact ih (fun s hs => h s (Nat.lt_succ_of_lt hs))

theorem lastAssigned_mono (outputs : List (List TensorNodeId)) (depths depths1 : Nat → Int)
    (i : Nat) (init : Int) :
    ∀ n, (∀ stage, stage < n → depths stage ≤ depths1 stage) →
      lastAssigned ⟨outputs, depths⟩ i (List.range n) init ≤
        lastAssigned ⟨outputs, depths1⟩ i (List.range n) init := by
  intro n
  induction n with
  | zero => intro _; exact le_refl _
  | succ n ih =>
    intro h
    rw [lastAssigned_range_succ, lastAssigned_range_succ]
    by_cases hn : i ∈ outputs.getD n []
    · simp only [hn, if_true]
      exact h n (Nat.lt_succ_self n)
    · simp only [hn, if_false]
      exact ih (fun s hs => h s (Nat.lt_succ_of_lt hs))

/-! ## The stage sets recorded by `SetupOutputInfo` -/

theorem length_resize (v : List (List TensorNodeId)) (n : Nat) : (resize v n).length = n := by
  simp only [resize, List.length_append, List.length_take, List.length_replicate]
  omega

theorem setup_loop_spec (graph : OpGraph) (stages : List Nat) :
    ∀ outputs : List (List TensorNodeId),
      (SetupOutputInfo.loop graph stages outputs).length = outputs.length ∧
        ∀ i, (SetupOutputInfo.loop graph stages outputs)[i]? =
          if i ∈ stages ∧ i < outputs.length then some (graph.GetStageOutputs i)
          else outputs[i]? := by
  induction stages with
  | nil =>
    intro outputs
    exact ⟨rfl, by simp [SetupOutputInfo.loop]⟩
  | cons stage rest ih =>
    intro outputs
    obtain ⟨hlen, hget⟩ := ih (outputs.set stage (graph.GetStageOutputs stage))
    refine ⟨by simpa [SetupOutputInfo.loop] using hlen, ?_⟩
    intro i
    simp only [SetupOutputInfo.loop, hget i, List.length_set, List.mem_cons]
    by_cases hlt : i < outputs.length
    · by_cases hi : i ∈ rest
      · simp [hi, hlt]
      · by_cases hii : i = stage
        · subst hii
          simp [hi, hlt]
        · simp [hi, hii, List.getElem?_set_ne (Ne.symm hii)]
    · have hge : outputs.length ≤ i := not_lt.mp hlt
      have h1 : (outputs.set stage (graph.GetStageOutputs stage))[i]? = none :=
        List.getElem?_eq_none (by rw [List.length_set]; exact hge)
      simp [hlt, h1, List.getElem?_eq_none hge]

/-- After `SetupOutputInfo` the recorded collection is the list of the answers of
the graph for the stages `0, ..., COUNT - 1`, whatever was recorded before. -/
theorem stage_outputs_SetupOutputInfo (COUNT : Nat) (self : PipelinedExecutorImpl)
    (graph : OpGraph) :
    (self.SetupOutputInfo COUNT graph).stage_outputs_ =
      (List.range COUNT).map graph.GetStageOutputs := by
  obtain ⟨hlen, hget⟩ :=
    setup_loop_spec graph (List.range COUNT) (resize self.stage_outputs_ COUNT)
  rw [length_resize] at hlen
  apply List.ext_getElem?
  intro i
  simp only [PipelinedExecutorImpl.SetupOutputInfo, hget i, length_resize, List.mem_range]
  by_cases hi : i < COUNT
  · simp [hi]
  · have h1 : (resize self.stage_outputs_ COUNT)[i]? = none :=
      List.getElem?_eq_none (by rw [length_resize]; exact not_lt.mp hi)
    have h2 : (List.range COUNT)[i]? = none :=
      List.getElem?_eq_none (by rw [List.length_range]; exact not_lt.mp hi)
    simp [hi, h1, h2]

theorem getD_stage_outputs_SetupOutputInfo (COUNT : Nat) (self : PipelinedExecutorImpl)
    (graph : OpGraph) (stage : Nat) (h : stage < COUNT) :
    (self.SetupOutputInfo COUNT graph).stage_outputs_.getD stage [] =
      graph.GetStageOutputs stage := by
  rw [stage_outputs_SetupOutputInfo]
  simp [List.getD_eq_getElem?_getD, h]

theorem mem_GetStageOutputs (graph : OpGraph) (stage id : Nat) :
    id ∈ graph.GetStageOutputs stage ↔
      ∃ node, graph.tensor_nodes[id]? = some node ∧ node.producer_stage = stage := by
  simp only [OpGraph.GetStageOutputs, List.mem_filter, List.mem_range]
  constructor
  · rintro ⟨hlt, h⟩
    rw [List.getElem?_eq_getElem hlt] at h
    refine ⟨graph.tensor_nodes[id], List.getElem?_eq_getElem hlt, ?_⟩
    simpa using h
  · rintro ⟨node, hnode, hstage⟩
    have hlt : id < graph.tensor_nodes.length := by
      by_contra hge
      rw [List.getElem?_eq_none (not_lt.mp hge)] at hnode
      exact Option.noConfusion hnode
    refine ⟨hlt, ?_⟩
    rw [hnode]
    simp [hstage]

/-- The sets recorded from a graph are usable on any vector with one entry per
node of the graph. -/
theorem valid_SetupOutputInfo (COUNT : Nat) (self : PipelinedExecutorImpl) (graph : OpGraph) :
    ValidStageOutputs COUNT (self.SetupOutputInfo COUNT graph) graph.tensor_nodes.length := by
  constructor
  · rw [stage_outputs_SetupOutputInfo]
    simp
  · intro stage hs id hid
    rw [getD_stage_outputs_SetupOutputInfo COUNT self graph stage hs] at hid
    simp only [OpGraph.GetStageOutputs, List.mem_filter, List.mem_range] at hid
    exact hid.1

theorem stage_queue_depths_SetupOutputInfo (COUNT : Nat) (self : PipelinedExecutorImpl)
    (graph : OpGraph) :
    (self.SetupOutputInfo COUNT graph).stage_queue_depths_ = self.stage_queue_depths_ := rfl

/-! ## Consequences shared by the claims -/

/-- The override at a glance: with usable stage sets the call returns a vector
as long as `base`; an id that no stage lists keeps the base entry; an id listed
by stage `s` and by no later stage gets the depth of `s`. -/
theorem GetTensorQueueSizes_entries (COUNT : Nat) (self : PipelinedExecutorImpl)
    (base : List Int) (h : ValidStageOutputs COUNT self base.length) :
    ∃ r, self.GetTensorQueueSizes COUNT base = some r ∧ r.length = base.length ∧
      (∀ id, (∀ stage, stage < COUNT → id ∉ self.stage_outputs_.getD stage []) →
        r[id]? = base[id]?) ∧
      (∀ s, s < COUNT → ∀ id ∈ self.stage_outputs_.getD s [],
        (∀ t, s < t → t < COUNT → id ∉ self.stage_outputs_.getD t []) →
        r[id]? = some (self.stage_queue_depths_ s)) := by
  obtain ⟨r, hr, hlen, hget⟩ := GetTensorQueueSizes_spec COUNT self base h
  refine ⟨r, hr, hlen, ?_, ?_⟩
  · intro id hid
    rw [hget id]
    cases base[id]? with
    | none => rfl
    | some x => rw [Option.map_some', lastAssigned_of_not_listed self id x COUNT hid]
  · intro s hs id hid hlast
    rw [hget id, List.getElem?_eq_getElem (h.2 s hs id hid), Option.map_some',
      lastAssigned_of_last self id s _ hid COUNT hs hlast]

theorem CalcIterationDataSize_mono (slot_bytes : List Nat) :
    ∀ r r1 : List Int, r.length = r1.length →
      (∀ (i : Nat) (x y : Int), r[i]? = some x → r1[i]? = some y → x ≤ y) →
      CalcIterationDataSize slot_bytes r ≤ CalcIterationDataSize slot_bytes r1 := by
  induction slot_bytes with
  | nil =>
    intro r r1 _ _
    simp [CalcIterationDataSize]
  | cons bytes rest ih =>
    intro r r1 hlen h
    cases r with
    | nil =>
      cases r1 with
      | nil => simp [CalcIterationDataSize]
      | cons y r1 => simp at hlen
    | cons x r =>
      cases r1 with
      | nil => simp at hlen
      | cons y r1 =>
        have hxy : x ≤ y := h 0 x y (by simp) (by simp)
        have hrest := ih r r1 (by simpa using hlen)
          (fun i a b ha hb => h (i + 1) a b (by simpa using ha) (by simpa using hb))
        simp only [CalcIterationDataSize, List.zipWith_cons_cons, List.sum_cons] at hrest ⊢
        exact add_le_add (mul_le_mul_of_nonneg_left hxy (Int.ofNat_nonneg bytes)) hrest

/-- With one depth `d` for every stage, every id listed by some stage gets `d`. -/
theorem GetTensorQueueSizes_uniform (COUNT : Nat) (self : PipelinedExecutorImpl)
    (base : List Int) (d : Int) (h : ValidStageOutputs COUNT self base.length)
    (huniform : ∀ stage, stage < COUNT → self.stage_queue_depths_ stage = d) :
    ∃ r, self.GetTensorQueueSizes COUNT base = some r ∧
      ∀ s, s < COUNT → ∀ id ∈ self.stage_outputs_.getD s [], r[id]? = some d := by
  obtain ⟨r, hr, _, hget⟩ := GetTensorQueueSizes_spec COUNT self base h
  refine ⟨r, hr, ?_⟩
  intro s hs id hid
  rw [hget id, List.getElem?_eq_getElem (h.2 s hs id hid), Option.map_some',
    lastAssigned_uniform self id _ d COUNT huniform ⟨s, hs, hid⟩]

/-! ## The claims -/

/-- C1: when the recorded stage sets are pairwise disjoint and hold only valid
node ids, `GetTensorQueueSizes` returns a vector whose entry at every id of
`stage_outputs_[s]` is `stage_queue_depths_[s]`, whatever the base entry was. -/
theorem stage_depth_of_disjoint_sets (COUNT : Nat) (self : PipelinedExecutorImpl)
    (base : List Int) (hvalid : ValidStageOutputs COUNT self base.length)
    (hdisjoint : ∀ s, s < COUNT → ∀ t, t < COUNT → s ≠ t →
      ∀ id ∈ self.stage_outputs_.getD s [], id ∉ self.stage_outputs_.getD t []) :
    ∃ r, self.GetTensorQueueSizes COUNT base = some r ∧
      ∀ s, s < COUNT → ∀ id ∈ self.stage_outputs_.getD s [],
        r[id]? = some (self.stage_queue_depths_ s) := by
  obtain ⟨r, hr, _, _, hlast⟩ := GetTensorQueueSizes_entries COUNT self base hvalid
  refine ⟨r, hr, ?_⟩
  intro s hs id hid
  exact hlast s hs id hid (fun t hst ht => hdisjoint s hs t ht (Nat.ne_of_lt hst) id hid)

theorem stage_depth_of_disjoint_sets_witness :
    ValidStageOutputs 3 (scenarioExecutor scenarioTable) [2, 2, 2].length ∧
      (scenarioExecutor scenarioTable).GetTensorQueueSizes 3 [2, 2, 2] = some [2, 2, 3] ∧
      ∃ r, (scenarioExecutor scenarioTable).GetTensorQueueSizes 3 [2, 2, 2] = some r ∧
        ∀ s, s < 3 → ∀ id ∈ (scenarioExecutor scenarioTable).stage_outputs_.getD s [],
          r[id]? = some ((scenarioExecutor scenarioTable).stage_queue_depths_ s) :=
  ⟨⟨by decide, by decide⟩, by decide,
    stage_depth_of_disjoint_sets 3 (scenarioExecutor scenarioTable) [2, 2, 2]
      ⟨by decide, by decide⟩
      (by
        intro s hs t ht hne id hid
        interval_cases s <;> interval_cases t <;> simp_all [scenarioExecutor])⟩

/-- C2: an id that is in none of the recorded stage sets keeps, in the vector
returned by `GetTensorQueueSizes`, exactly the entry of the base vector. -/
theorem base_depth_outside_stage_sets (COUNT : Nat) (self : PipelinedExecutorImpl)
    (base : List Int) (hvalid : ValidStageOutputs COUNT self base.length) :
    ∃ r, self.GetTensorQueueSizes COUNT base = some r ∧
      ∀ id, (∀ stage, stage < COUNT → id ∉ self.stage_outputs_.getD stage []) →
        r[id]? = base[id]? := by
  obtain ⟨r, hr, _, hframe, _⟩ := GetTensorQueueSizes_entries COUNT self base hvalid
  exact ⟨r, hr, hframe⟩

theorem base_depth_outside_stage_sets_witness :
    ValidStageOutputs 2 ⟨[[1], []], fun _ => 3⟩ [5, 6, 7].length ∧
      ∃ r, PipelinedExecutorImpl.GetTensorQueueSizes 2 ⟨[[1], []], fun _ => 3⟩ [5, 6, 7] = some r ∧
        ∀ id, (∀ stage, stage < 2 →
          id ∉ (PipelinedExecutorImpl.mk [[1], []] fun _ => 3).stage_outputs_.getD stage []) →
          r[id]? = [5, 6, 7][id]? :=
  ⟨⟨by decide, by decide⟩,
    base_depth_outside_stage_sets 2 ⟨[[1], []], fun _ => 3⟩ [5, 6, 7] ⟨by decide, by decide⟩⟩

/-- C4: when `stage_queue_depths_` holds the same depth `d` for every stage,
every id in any recorded stage set gets depth `d` from `GetTensorQueueSizes`,
whichever and however many stages list it and whatever the base entry was. -/
theorem uniform_depth_for_listed_nodes (COUNT : Nat) (self : PipelinedExecutorImpl)
    (base : List Int) (d : Int) (hvalid : ValidStageOutputs COUNT self base.length)
    (huniform : ∀ stage, stage < COUNT → self.stage_queue_depths_ stage = d) :
    ∃ r, self.GetTensorQueueSizes COUNT base = some r ∧
      ∀ s, s < COUNT → ∀ id ∈ self.stage_outputs_.getD s [], r[id]? = some d :=
  GetTensorQueueSizes_uniform COUNT self base d hvalid huniform

theorem uniform_depth_for_listed_nodes_witness :
    ValidStageOutputs 3 (scenarioExecutor fun _ => 3) [2, 2, 2].length ∧
      (∀ stage, stage < 3 → (scenarioExecutor fun _ => 3).stage_queue_depths_ stage = 3) ∧
      (scenarioExecutor fun _ => 3).GetTensorQueueSizes 3 [2, 2, 2] = some [3, 3, 3] ∧
      ∃ r, (scenarioExecutor fun _ => 3).GetTensorQueueSizes 3 [2, 2, 2] = some r ∧
        ∀ s, s < 3 → ∀ id ∈ (scenarioExecutor fun _ => 3).stage_outputs_.getD s [],
          r[id]? = some 3 :=
  ⟨⟨by decide, by decide⟩, fun _ _ => rfl, by decide,
    uniform_depth_for_listed_nodes 3 (scenarioExecutor fun _ => 3) [2, 2, 2] 3
      ⟨by decide, by decide⟩ (fun _ _ => rfl)⟩

/-- C5: the vector returned by `GetTensorQueueSizes` has the length of the base
vector, and when every base entry and every stage depth is positive, every
entry of the returned vector is positive. -/
theorem depth_vector_length_and_positive (COUNT : Nat) (self : PipelinedExecutorImpl)
    (base : List Int) (hvalid : ValidStageOutputs COUNT self base.length) :
    ∃ r, self.GetTensorQueueSizes COUNT base = some r ∧ r.length = base.length ∧
      ((∀ x ∈ base, 0 < x) → (∀ stage, stage < COUNT → 0 < self.stage_queue_depths_ stage) →
        ∀ x ∈ r, 0 < x) := by
  obtain ⟨r, hr, hlen, hget⟩ := GetTensorQueueSizes_spec COUNT self base hvalid
  refine ⟨r, hr, hlen, ?_⟩
  intro hbase hdepths x hx
  obtain ⟨i, hi⟩ := List.mem_iff_getElem?.mp hx
  rw [hget i] at hi
  cases hb : base[i]? with
  | none =>
    rw [hb] at hi
    exact Option.noConfusion hi
  | some b =>
    rw [hb, Option.map_some'] at hi
    have hpos : 0 < b := hbase b (List.mem_iff_getElem?.mpr ⟨i, hb⟩)
    have hxeq : lastAssigned self i (List.range COUNT) b = x := Option.some.inj hi
    rw [← hxeq]
    exact lastAssigned_pos self i b hpos COUNT hdepths

theorem depth_vector_length_and_positive_witness :
    ValidStageOutputs 3 (scenarioExecutor scenarioTable) [1, 1, 1, 1].length ∧
      ∃ r, (scenarioExecutor scenarioTable).GetTensorQueueSizes 3 [1, 1, 1, 1] = some r ∧
        r.length = [1, 1, 1, 1].length ∧
        ((∀ x ∈ ([1, 1, 1, 1] : List Int), 0 < x) →
          (∀ stage, stage < 3 → 0 < (scenarioExecutor scenarioTable).stage_queue_depths_ stage) →
          ∀ x ∈ r, 0 < x) :=
  ⟨⟨by decide, by decide⟩,
    depth_vector_length_and_positive 3 (scenarioExecutor scenarioTable) [1, 1, 1, 1]
      ⟨by decide, by decide⟩⟩

/-- C7: an executor constructed without a `prefetch_queue_depth` argument has
depth 2 configured for every stage, and after `SetupOutputInfo` every node of a
recorded stage set gets depth 2 from `GetTensorQueueSizes`. -/
theorem default_prefetch_depth_is_two (COUNT : Nat) (reads_size0 : Nat → Bool)
    (graph : OpGraph) (base : List Int) (hbase : base.length = graph.tensor_nodes.length) :
    (∀ stage, (PipelinedExecutorImpl.create reads_size0 none).stage_queue_depths_ stage = 2) ∧
      ∃ r, ((PipelinedExecutorImpl.create reads_size0 none).SetupOutputInfo COUNT
          graph).GetTensorQueueSizes COUNT base = some r ∧
        ∀ s, s < COUNT →
          ∀ id ∈ ((PipelinedExecutorImpl.create reads_size0 none).SetupOutputInfo COUNT
            graph).stage_outputs_.getD s [], r[id]? = some 2 := by
  have hdepth :
      ∀ stage, (PipelinedExecutorImpl.create reads_size0 none).stage_queue_depths_ stage = 2 := by
    intro stage
    simp only [PipelinedExecutorImpl.create, Executor.stageQueueDepths, Option.getD_none]
    split <;> rfl
  have hvalid := valid_SetupOutputInfo COUNT (PipelinedExecutorImpl.create reads_size0 none) graph
  rw [← hbase] at hvalid
  exact ⟨hdepth, GetTensorQueueSizes_uniform COUNT _ base 2 hvalid (fun stage _ => hdepth stage)⟩

theorem default_prefetch_depth_is_two_witness :
    [1, 1, 1].length = scenarioGraph.tensor_nodes.length ∧
      ((PipelinedExecutorImpl.create (fun stage => decide (stage = 1)) none).SetupOutputInfo 3
        scenarioGraph).GetTensorQueueSizes 3 [1, 1, 1] = some [2, 2, 2] ∧
      ((∀ stage, (PipelinedExecutorImpl.create (fun stage => decide (stage = 1))
          none).stage_queue_depths_ stage = 2) ∧
        ∃ r, ((PipelinedExecutorImpl.create (fun stage => decide (stage = 1)) none).SetupOutputInfo
            3 scenarioGraph).GetTensorQueueSizes 3 [1, 1, 1] = some r ∧
          ∀ s, s < 3 →
            ∀ id ∈ ((PipelinedExecutorImpl.create (fun stage => decide (stage = 1))
              none).SetupOutputInfo 3 scenarioGraph).stage_outputs_.getD s [],
              r[id]? = some 2) :=
  ⟨by decide, by decide,
    default_prefetch_depth_is_two 3 (fun stage => decide (stage = 1)) scenarioGraph [1, 1, 1]
      (by decide)⟩

/-- C8: with the recorded stage sets, the base vector and the slot byte sizes
fixed, raising the configured depth of one stage never lowers the footprint
`CalcIterationDataSize` taken over the vector `GetTensorQueueSizes` returns. -/
theorem footprint_monotone_in_stage_depth (COUNT : Nat) (outputs : List (List TensorNodeId))
    (depths : Nat → Int) (base : List Int) (slot_bytes : List Nat) (s : Nat) (d1 : Int)
    (hvalid : ValidStageOutputs COUNT ⟨outputs, depths⟩ base.length)
    (hraise : depths s ≤ d1) :
    ∃ r r1, PipelinedExecutorImpl.GetTensorQueueSizes COUNT ⟨outputs, depths⟩ base = some r ∧
      PipelinedExecutorImpl.GetTensorQueueSizes COUNT ⟨outputs, withStageDepth depths s d1⟩ base =
        some r1 ∧
      CalcIterationDataSize slot_bytes r ≤ CalcIterationDataSize slot_bytes r1 := by
  have hvalid1 : ValidStageOutputs COUNT ⟨outputs, withStageDepth depths s d1⟩ base.length :=
    hvalid
  obtain ⟨r, hr, hlen, hget⟩ := GetTensorQueueSizes_spec COUNT ⟨outputs, depths⟩ base hvalid
  obtain ⟨r1, hr1, hlen1, hget1⟩ :=
    GetTensorQueueSizes_spec COUNT ⟨outputs, withStageDepth depths s d1⟩ base hvalid1
  refine ⟨r, r1, hr, hr1, CalcIterationDataSize_mono slot_bytes r r1 (hlen.trans hlen1.symm) ?_⟩
  intro i x y hx hy
  rw [hget i] at hx
  rw [hget1 i] at hy
  cases hb : base[i]? with
  | none =>
    rw [hb] at hx
    exact Option.noConfusion hx
  | some b =>
    rw [hb, Option.map_some'] at hx hy
    rw [← Option.some.inj hx, ← Option.some.inj hy]
    apply lastAssigned_mono outputs depths (withStageDepth depths s d1) i b COUNT
    intro stage _
    unfold withStageDepth
    split
    · next h => rw [h]; exact hraise
    · exact le_refl _

theorem footprint_monotone_in_stage_depth_witness :
    ValidStageOutputs 3 ⟨[[0], [1], [2]], scenarioTable⟩ [2, 2, 2].length ∧
      scenarioTable 0 ≤ 5 ∧
      PipelinedExecutorImpl.GetTensorQueueSizes 3 ⟨[[0], [1], [2]], scenarioTable⟩ [2, 2, 2] =
        some [2, 2, 3] ∧
      PipelinedExecutorImpl.GetTensorQueueSizes 3
        ⟨[[0], [1], [2]], withStageDepth scenarioTable 0 5⟩ [2, 2, 2] = some [5, 2, 3] ∧
      CalcIterationDataSize [10, 20, 30] [2, 2, 3] = 150 ∧
      CalcIterationDataSize [10, 20, 30] [5, 2, 3] = 180 ∧
      ∃ r r1,
        PipelinedExecutorImpl.GetTensorQueueSizes 3 ⟨[[0], [1], [2]], scenarioTable⟩ [2, 2, 2] =
          some r ∧
        PipelinedExecutorImpl.GetTensorQueueSizes 3
          ⟨[[0], [1], [2]], withStageDepth scenarioTable 0 5⟩ [2, 2, 2] = some r1 ∧
        CalcIterationDataSize [10, 20, 30] r ≤ CalcIterationDataSize [10, 20, 30] r1 :=
  ⟨⟨by decide, by decide⟩, by decide, by decide, by decide, by decide, by decide,
    footprint_monotone_in_stage_depth 3 [[0], [1], [2]] scenarioTable [2, 2, 2] [10, 20, 30] 0 5
      ⟨by decide, by decide⟩ (by decide)⟩

/-- C10: a node id listed by several stages gets from `GetTensorQueueSizes` the
depth of the highest-numbered stage that lists it, not the largest of the
depths of the stages listing it: in `overlapExecutor` node 0 is listed by the
stages 0 and 1 and gets depth 2, below the depth 3 configured for stage 0. -/
theorem overlap_takes_last_stage_depth :
    (∀ (COUNT : Nat) (self : PipelinedExecutorImpl) (base : List Int),
      ValidStageOutputs COUNT self base.length →
      ∃ r, self.GetTensorQueueSizes COUNT base = some r ∧
        ∀ s, s < COUNT → ∀ id ∈ self.stage_outputs_.getD s [],
          (∀ t, s < t → t < COUNT → id ∉ self.stage_outputs_.getD t []) →
          r[id]? = some (self.stage_queue_depths_ s)) ∧
      ∃ (COUNT : Nat) (self : PipelinedExecutorImpl) (base r : List Int) (id s : Nat) (x : Int),
        self.GetTensorQueueSizes COUNT base = some r ∧ s < COUNT ∧
          id ∈ self.stage_outputs_.getD s [] ∧ r[id]? = some x ∧
          x < self.stage_queue_depths_ s := by
  constructor
  · intro COUNT self base hvalid
    obtain ⟨r, hr, _, _, hlast⟩ := GetTensorQueueSizes_entries COUNT self base hvalid
    exact ⟨r, hr, hlast⟩
  · exact ⟨3, overlapExecutor, [1], [2], 0, 0, 2, by decide, by decide, by decide, by decide,
      by decide⟩

theorem overlap_takes_last_stage_depth_witness :
    ValidStageOutputs 3 overlapExecutor [1].length ∧
      overlapExecutor.GetTensorQueueSizes 3 [1] = some [2] ∧
      overlapExecutor.stage_queue_depths_ 1 = 2 ∧
      overlapExecutor.stage_queue_depths_ 0 = 3 ∧
      ∃ r, overlapExecutor.GetTensorQueueSizes 3 [1] = some r ∧
        ∀ s, s < 3 → ∀ id ∈ overlapExecutor.stage_outputs_.getD s [],
          (∀ t, s < t → t < 3 → id ∉ overlapExecutor.stage_outputs_.getD t []) →
          r[id]? = some (overlapExecutor.stage_queue_depths_ s) :=
  ⟨⟨by decide, by decide⟩, by decide, by decide, by decide,
    overlap_takes_last_stage_depth.1 3 overlapExecutor [1] ⟨by decide, by decide⟩⟩

end dali
